import Mathlib

/-!
Shallow embedding of the `ringbuffer` Go package (ericaro/ringbuffer,
file `ringbuffer.go`) and verification of its specification claims.

Modelling conventions:
* Go `int` is modelled as `Int` (the operations considered never overflow a
  64-bit integer for any slice that can physically exist).
* Go `[]interface{}` is modelled as `List (Option α)`: a slot holds `none`
  for Go's zero value `nil` (as produced by `make`), `some v` for a stored
  value.
* Go's `%` on `int` is truncated-division remainder, i.e. `Int.tmod`.
* Go slice/index panics and the explicit `panic(FullError)` are modelled by
  `Option`/a `Panic` constructor: `none`/`.Panic` means the Go code panics.
* `copy(dst, src)` copies `min (len dst) (len src)` elements into the front
  of `dst` and returns that count (`goCopy`).
* The mutex fields serialize access and have no sequential semantics; they
  are omitted.
-/

namespace RingBuffer

/-- Go error values `EmptyError` and `FullError` of the package. -/
inductive GoError where
  | EmptyError
  | FullError
deriving DecidableEq

/-- The `Ring` struct: `head, size int` and `buf []interface{}`.
The capacity is `buf.length` (Go: `len(b.buf)`). -/
structure Ring (α : Type) where
  head : Int
  size : Int
  buf : List (Option α)
deriving DecidableEq

/-- Go function `Next(i, latest, capacity int) int`:
`n := (latest + i) % capacity; if n < 0 { n += capacity }; return n`. -/
def Next (i latest capacity : Int) : Int :=
  let n := (latest + i).tmod capacity
  if n < 0 then n + capacity else n

/-- The loop `for pos < 0 { pos += capacity }` in Go function `Index`,
with an explicit iteration budget. When `1 ≤ capacity` the loop runs at
most `(-pos).toNat` times, so `posLoopAux (-pos).toNat pos capacity`
computes exactly the Go loop's result; when `capacity ≤ 0` and `pos < 0`
the Go loop never terminates (no caller in the package reaches that). -/
def posLoopAux : Nat → Int → Int → Int
  | 0, pos, _ => pos
  | fuel + 1, pos, capacity =>
    if pos < 0 then posLoopAux fuel (pos + capacity) capacity else pos

/-- Go function `Index(i, head, size, capacity int) int`. -/
def Index (i head size capacity : Int) : Int :=
  if size = 0 then -1
  else
    -- i = i % size; if i < 0 { i += size }
    let i1 := i.tmod size
    let i2 := if i1 < 0 then i1 + size else i1
    -- pos := head - i; for pos < 0 { pos += capacity }
    let pos := head - i2
    posLoopAux (-pos).toNat pos capacity

/-- Go function `New(capacity int) *Ring`: zeroed buffer, `head: -1`.
(Go `make` panics on a negative capacity; the constructor is specified for
non-negative capacities only, hence a `Nat` argument.) -/
def New {α : Type} (capacity : Nat) : Ring α :=
  { head := -1, size := 0, buf := List.replicate capacity none }

/-- Go method `Capacity() int`: `len(b.buf)`. -/
def Ring.Capacity (b : Ring α) : Int := b.buf.length

/-- Go method `Size() int`: `b.size`. -/
def Ring.Size (b : Ring α) : Int := b.size

/-- Go method `Add(val) error`. Returns the post-state and the returned
error (`none` on success; on `FullError` the receiver is unchanged, which
the pair `(b, some .FullError)` records). `b.buf[next] = val` is in range
whenever the guard passed and `0 ≤ size`, since then `1 ≤ len(buf)` and
`Next` lands in `[0, len(buf))`. -/
def Ring.Add (b : Ring α) (val : α) : Ring α × Option GoError :=
  if (b.buf.length : Int) ≤ b.size then (b, some .FullError)
  else
    let next := Next 1 b.head b.buf.length
    ({ head := next, size := b.size + 1,
       buf := b.buf.set next.toNat (some val) }, none)

/-- Go builtin `copy(dst, src)`: writes `min (len dst) (len src)` elements
of `src` over the front of `dst`, returns the count and the updated `dst`. -/
def goCopy (dst src : List β) : Nat × List β :=
  let n := min dst.length src.length
  (n, src.take n ++ dst.drop n)

/-- The `for len(values) > 0` loop of Go method `AddAll`, acting on the
fields `(head, size, buf)`. `fuel` bounds the number of iterations: each
iteration either panics (`none`, the Go `panic(FullError)` at `n == 0`) or
consumes `n ≥ 1` values, so `values.length` iterations always suffice.
The `List Nat` in the result is ghost instrumentation recording the length
of each bulk copy span (absent from the Go code; used to state the
"at most two copy spans" property). -/
def addAllLoopAux : Nat → Int → Int → List (Option α) → List α →
    Option (Int × Int × List (Option α) × List Nat)
  | _, head, size, buf, [] => some (head, size, buf, [])
  | 0, _, _, _, _ :: _ => none
  | fuel + 1, head, size, buf, v :: vs =>
    let values := v :: vs
    -- next := Next(1, b.head, len(b.buf)); tgt := b.buf[next:]
    let next := Next 1 head buf.length
    -- n := copy(tgt, values)  (writes through into b.buf)
    let c := goCopy (buf.drop next.toNat) (values.map some)
    if c.1 = 0 then none  -- panic(FullError)
    else
      let buf2 := buf.take next.toNat ++ c.2
      -- b.head = Next(n, b.head, len(b.buf)); b.size += n; values = values[n:]
      match addAllLoopAux fuel (Next c.1 head buf.length) (size + c.1)
          buf2 (values.drop c.1) with
      | none => none
      | some (h2, s2, b2, spans) => some (h2, s2, b2, c.1 :: spans)

/-- Go method `AddAll(values ...interface{}) error`: the `Full` pre-check,
then the copy loop. `none` models a panic inside the loop. -/
def Ring.AddAll (b : Ring α) (values : List α) : Option (Ring α × Option GoError) :=
  if (b.buf.length : Int) < b.size + values.length then some (b, some .FullError)
  else
    match addAllLoopAux values.length b.head b.size b.buf values with
    | none => none
    | some (h, s, buf, _) => some ({ head := h, size := s, buf := buf }, none)

/-- The list of copy-span lengths performed by `AddAll` (ghost
instrumentation of the same loop; `[]` when the pre-check fails or the
loop panics). -/
def Ring.AddAllSpans (b : Ring α) (values : List α) : List Nat :=
  if (b.buf.length : Int) < b.size + values.length then []
  else
    match addAllLoopAux values.length b.head b.size b.buf values with
    | none => []
    | some (_, _, _, spans) => spans

/-- Go method `Remove(count int)`. -/
def Ring.Remove (b : Ring α) (count : Int) : Ring α :=
  if count ≤ 0 then b
  else
    -- b.size -= count; if b.size <= 0 { b.size = 0; b.head = -1 }
    let size := b.size - count
    if size ≤ 0 then { b with size := 0, head := -1 }
    else { b with size := size }

/-- Go method `SetCapacity(capacity int)`. `none` models a run-time panic:
a slice expression `b.buf[tail:]` / `b.buf[tail:head+1]` / `b.buf[:head+1]`
whose bounds are out of range (Go: "slice bounds out of range"), or `make`
with a negative length. In particular `tail = -1` (empty ring) with a
changed capacity panics. -/
def Ring.SetCapacity (b : Ring α) (capacity : Int) : Option (Ring α) :=
  -- if capacity < b.size { capacity = b.size }
  let capacity := if capacity < b.size then b.size else capacity
  -- if capacity == len(b.buf) { return }
  if capacity = (b.buf.length : Int) then some b
  else if capacity < 0 then none  -- make([]interface{}, capacity) panics
  else
    let nbuf : List (Option α) := List.replicate capacity.toNat none
    let head := b.head
    let tail := Index (-1) head b.size b.buf.length
    if tail < head then
      -- one piece: copy(nbuf, b.buf[tail:head+1])
      if 0 ≤ tail ∧ head + 1 ≤ (b.buf.length : Int) then
        let piece := (b.buf.take (head + 1).toNat).drop tail.toNat
        some { head := b.size - 1, size := b.size, buf := (goCopy nbuf piece).2 }
      else none
    else
      -- two pieces: n := copy(nbuf, b.buf[tail:]); copy(nbuf[n:], b.buf[:head+1])
      if 0 ≤ tail ∧ tail ≤ (b.buf.length : Int) ∧
          0 ≤ head + 1 ∧ head + 1 ≤ (b.buf.length : Int) then
        let c1 := goCopy nbuf (b.buf.drop tail.toNat)
        let c2 := goCopy (c1.2.drop c1.1) (b.buf.take (head + 1).toNat)
        some { head := b.size - 1, size := b.size, buf := c1.2.take c1.1 ++ c2.2 }
      else none

/-- Go method `Push(value interface{})`. -/
def Ring.Push (b : Ring α) (value : α) : Ring α :=
  if b.buf.length = 0 ∨ b.size = 0 then b  -- nothing to do
  else
    let next := Next 1 b.head b.buf.length
    { b with head := next, buf := b.buf.set next.toNat (some value) }

/-- Result of Go method `Get`: the value read, the `EmptyError` return
(Go returns the pair `(0, EmptyError)` there; the placeholder value `0` is
not modelled), or an index-out-of-range panic. -/
inductive GetRes (α : Type) where
  | Ok (v : Option α)
  | Err (e : GoError)
  | Panic
deriving DecidableEq

/-- Go method `Get(i int) (interface{}, error)`. -/
def Ring.Get (b : Ring α) (i : Int) : GetRes α :=
  if b.size = 0 then .Err .EmptyError
  else
    let position := Index i b.head b.size b.buf.length
    if 0 ≤ position ∧ position < (b.buf.length : Int) then
      .Ok (b.buf.getD position.toNat none)
    else .Panic  -- b.buf[position] out of range

/-- Sequential repeated `Add`, the reference behaviour the spec compares
`AddAll` against ("Behave like looping over Add() method"): call `Add` on
each value in turn, stopping at the first error. -/
def addSeq (b : Ring α) : List α → Ring α × Option GoError
  | [] => (b, none)
  | v :: vs =>
    match b.Add v with
    | (b2, none) => addSeq b2 vs
    | (b2, some e) => (b2, some e)

/-- The state invariant of a ring (claim C10):
`0 ≤ size ≤ len(buf)`, `size = 0 ↔ head = -1`, and a valid head when
non-empty. -/
def Ring.WF (b : Ring α) : Prop :=
  0 ≤ b.size ∧ b.size ≤ (b.buf.length : Int) ∧
  (b.size = 0 ↔ b.head = -1) ∧
  (0 < b.size → 0 ≤ b.head ∧ b.head < (b.buf.length : Int))

/-- States reachable from `New` by the package's mutating operations.
(`Get`, `Size`, `Capacity` do not mutate; an operation that returns an
error without a new state, or panics, yields no new state.) -/
inductive Reachable : Ring α → Prop where
  | new (capacity : Nat) : Reachable (New capacity)
  | add (b : Ring α) (v : α) : Reachable b → Reachable (b.Add v).1
  | addAll (b b2 : Ring α) (vs : List α) (e : Option GoError) :
      Reachable b → b.AddAll vs = some (b2, e) → Reachable b2
  | remove (b : Ring α) (n : Int) : Reachable b → Reachable (b.Remove n)
  | push (b : Ring α) (v : α) : Reachable b → Reachable (b.Push v)
  | setCapacity (b b2 : Ring α) (c : Int) :
      Reachable b → b.SetCapacity c = some b2 → Reachable b2

/-! ### Arithmetic characterization of `Next` and `Index` -/

theorem neg_tmod (a b : Int) : (-a).tmod b = -(a.tmod b) := by
  rw [Int.tmod_def, Int.tmod_def, Int.neg_tdiv]; ring

theorem tmod_gt_neg (a : Int) {b : Int} (hb : 0 < b) : -b < a.tmod b := by
  rcases le_or_lt 0 a with ha | ha
  · have := Int.tmod_nonneg b ha
    omega
  · have h1 : (-a).tmod b < b := Int.tmod_lt_of_pos (-a) hb
    have h2 : (-a).tmod b = -(a.tmod b) := neg_tmod a b
    omega

theorem tmod_emod (a b : Int) : a.tmod b % b = a % b := by
  rw [Int.tmod_def, Int.sub_eq_add_neg, ← Int.mul_neg, Int.add_mul_emod_self_left]

/-- Go's remainder-then-correct idiom computes the Euclidean remainder. -/
theorem fold_tmod_eq_emod (a : Int) {b : Int} (hb : 0 < b) :
    (if a.tmod b < 0 then a.tmod b + b else a.tmod b) = a % b := by
  have h1 : a.tmod b < b := Int.tmod_lt_of_pos a hb
  have h2 : -b < a.tmod b := tmod_gt_neg a hb
  have h3 : a.tmod b % b = a % b := tmod_emod a b
  have h4 : (a.tmod b + b) % b = a.tmod b % b := Int.add_emod_self
  split
  · rw [← h3, ← h4, Int.emod_eq_of_lt (by omega) (by omega)]
  · rw [← h3, Int.emod_eq_of_lt (by omega) h1]

theorem posLoopAux_spec {capacity : Int} (hcap : 0 < capacity) :
    ∀ (fuel : Nat) (pos : Int), (-pos).toNat ≤ fuel →
      posLoopAux fuel pos capacity = if pos < 0 then pos % capacity else pos := by
  intro fuel
  induction fuel with
  | zero =>
    intro pos h
    have : 0 ≤ pos := by omega
    simp [posLoopAux, if_neg (not_lt.mpr this)]
  | succ f ih =>
    intro pos h
    rw [posLoopAux]
    split
    · rename_i hneg
      rw [ih (pos + capacity) (by omega)]
      have hc : (pos + capacity) % capacity = pos % capacity := Int.add_emod_self
      split
      · rw [hc]
      · rename_i hge
        rw [← hc, Int.emod_eq_of_lt (by omega) (by omega)]
    · rfl

theorem Next_eq_emod (i latest : Int) {capacity : Int} (hcap : 0 < capacity) :
    Next i latest capacity = (latest + i) % capacity := by
  unfold Next
  exact fold_tmod_eq_emod _ hcap

theorem Next_bounds (i latest : Int) {capacity : Int} (hcap : 0 < capacity) :
    0 ≤ Next i latest capacity ∧ Next i latest capacity < capacity := by
  rw [Next_eq_emod i latest hcap]
  exact ⟨Int.emod_nonneg _ (by omega), Int.emod_lt_of_pos _ hcap⟩

/-- Closed form of `Index` on a valid state: logical offset `i` folds
modulo `size` (Euclidean), and the result is `(head - i % size) % capacity`. -/
theorem Index_eq_emod (i : Int) {head size capacity : Int}
    (hsize : 0 < size) (hhead : 0 ≤ head) (hh2 : head < capacity) (hsc : size ≤ capacity) :
    Index i head size capacity = (head - i % size) % capacity := by
  have hcap : 0 < capacity := lt_of_le_of_lt hhead hh2
  unfold Index
  rw [if_neg (by omega)]
  simp only []
  rw [fold_tmod_eq_emod i hsize]
  have hr1 : 0 ≤ i % size := Int.emod_nonneg _ (by omega)
  have hr2 : i % size < size := Int.emod_lt_of_pos _ hsize
  set pos := head - i % size with hpos
  have hb1 : -capacity < pos := by omega
  have hb2 : pos < capacity := by omega
  rw [posLoopAux_spec hcap _ pos (le_refl _)]
  split
  · rfl
  · rename_i hge
    rw [Int.emod_eq_of_lt (by omega) hb2]

theorem Index_bounds (i : Int) {head size capacity : Int}
    (hsize : 0 < size) (hhead : 0 ≤ head) (hh2 : head < capacity) (hsc : size ≤ capacity) :
    0 ≤ Index i head size capacity ∧ Index i head size capacity < capacity := by
  rw [Index_eq_emod i hsize hhead hh2 hsc]
  have hcap : 0 < capacity := lt_of_le_of_lt hhead hh2
  exact ⟨Int.emod_nonneg _ (by omega), Int.emod_lt_of_pos _ hcap⟩



/-! ### `Get` characterization and invariant lemmas -/

theorem Get_eq_getD {α : Type} {b : Ring α} (hwf : b.WF) (hs : 0 < b.size) (i : Int) :
    b.Get i = .Ok (b.buf.getD ((b.head - i % b.size) % (b.buf.length : Int)).toNat none) := by
  obtain ⟨h0, h1, h2, h3⟩ := hwf
  obtain ⟨hh0, hh1⟩ := h3 hs
  unfold Ring.Get
  rw [if_neg (by omega)]
  simp only []
  rw [Index_eq_emod i hs hh0 hh1 h1]
  rw [if_pos ⟨Int.emod_nonneg _ (by omega), Int.emod_lt_of_pos _ (by omega)⟩]

theorem WF_mk {α : Type} {head size : Int} {buf : List (Option α)}
    (c1 : 0 ≤ size) (c2 : size ≤ (buf.length : Int)) (c3 : size = 0 ↔ head = -1)
    (c4 : 0 < size → 0 ≤ head ∧ head < (buf.length : Int)) :
    (Ring.mk head size buf).WF := ⟨c1, c2, c3, c4⟩

theorem WF_new (α : Type) (c : Nat) : (New c : Ring α).WF := by
  refine WF_mk le_rfl (by simp) (by simp) (fun h => absurd h (by simp))

theorem WF_add {α : Type} {b : Ring α} (v : α) (h : b.WF) : ((b.Add v).1).WF := by
  obtain ⟨h0, h1, h2, h3⟩ := h
  unfold Ring.Add
  split
  · exact ⟨h0, h1, h2, h3⟩
  · rename_i hguard
    have hcap : 0 < (b.buf.length : Int) := by omega
    obtain ⟨hn0, hn1⟩ := Next_bounds 1 b.head hcap
    exact WF_mk (by omega) (by simp only [List.length_set]; omega)
      (by constructor <;> intro hh <;> omega)
      (fun _ => by simp only [List.length_set]; exact ⟨hn0, hn1⟩)

theorem WF_remove {α : Type} {b : Ring α} (n : Int) (h : b.WF) : (b.Remove n).WF := by
  obtain ⟨h0, h1, h2, h3⟩ := h
  unfold Ring.Remove
  split
  · exact ⟨h0, h1, h2, h3⟩
  · rename_i hn
    simp only []
    split
    · exact WF_mk le_rfl (by omega) (by simp) (fun hh => absurd hh (by simp))
    · rename_i hsz
      refine WF_mk (by omega) (by omega) ?_ (fun _ => h3 (by omega))
      constructor
      · intro hh; omega
      · intro hh
        have := h2.mpr hh
        omega

theorem WF_push {α : Type} {b : Ring α} (v : α) (h : b.WF) : (b.Push v).WF := by
  obtain ⟨h0, h1, h2, h3⟩ := h
  unfold Ring.Push
  split
  · exact ⟨h0, h1, h2, h3⟩
  · rename_i hguard
    push_neg at hguard
    have hcap : 0 < (b.buf.length : Int) := by
      have h4 : b.buf.length ≠ 0 := hguard.1
      omega
    obtain ⟨hn0, hn1⟩ := Next_bounds 1 b.head hcap
    refine WF_mk h0 (by simp only [List.length_set]; exact h1) ?_
      (fun _ => by simp only [List.length_set]; exact ⟨hn0, hn1⟩)
    constructor
    · intro hh; exact absurd hh hguard.2
    · intro hh; omega

theorem WF_addSeq {α : Type} : ∀ (vs : List α) (b : Ring α), b.WF → ((addSeq b vs).1).WF := by
  intro vs
  induction vs with
  | nil => intro b h; exact h
  | cons v tl ih =>
    intro b h
    unfold addSeq
    have hadd := WF_add v h
    cases e : b.Add v with
    | mk b2 err =>
      rw [e] at hadd
      cases err with
      | none => exact ih b2 hadd
      | some e2 => exact hadd

/-! ### Sequential-write machinery for `AddAll` -/

def writeSeq (head : Int) (buf : List (Option α)) (values : List α) : Int × List (Option α) :=
  values.foldl (fun s v =>
    let next := Next 1 s.1 s.2.length
    (next, s.2.set next.toNat (some v))) (head, buf)

theorem writeSeq_nil (head : Int) (buf : List (Option α)) : writeSeq head buf [] = (head, buf) := rfl

theorem writeSeq_cons (head : Int) (buf : List (Option α)) (v : α) (vs : List α) :
    writeSeq head buf (v :: vs) =
      writeSeq (Next 1 head buf.length) (buf.set (Next 1 head buf.length).toNat (some v)) vs := rfl

theorem writeSeq_append (head : Int) (buf : List (Option α)) (xs ys : List α) :
    writeSeq head buf (xs ++ ys) = writeSeq (writeSeq head buf xs).1 (writeSeq head buf xs).2 ys := by
  unfold writeSeq
  rw [List.foldl_append]

theorem writeSeq_length (vs : List α) : ∀ (head : Int) (buf : List (Option α)),
    (writeSeq head buf vs).2.length = buf.length := by
  induction vs with
  | nil => intro head buf; rfl
  | cons v tl ih =>
    intro head buf
    rw [writeSeq_cons, ih]
    exact List.length_set ..

theorem Next_one_eq {h cap : Int} (h1 : 0 ≤ h + 1) (h2 : h + 1 < cap) : Next 1 h cap = h + 1 := by
  unfold Next
  simp only []
  rw [Int.tmod_eq_of_lt h1 h2, if_neg (not_lt.mpr h1)]

theorem Next_one_pred {p cap : Int} (h1 : 0 ≤ p) (h2 : p < cap) : Next 1 (p - 1) cap = p := by
  have := @Next_one_eq (p - 1) cap (by omega) (by omega)
  rwa [sub_add_cancel] at this

/-- A maximal contiguous span of single-slot writes: starting just past
position `h` with all `vs.length` slots available before the end of the
buffer, the sequential writes fill `buf[h+1 ... h+vs.length]` in order. -/
theorem writeSeq_block : ∀ (vs : List α) (h : Int) (buf : List (Option α)),
    -1 ≤ h → h + 1 + vs.length ≤ (buf.length : Int) →
    writeSeq h buf vs =
      (h + vs.length,
       buf.take (h + 1).toNat ++ vs.map some ++ buf.drop ((h + 1).toNat + vs.length)) := by
  intro vs
  induction vs with
  | nil =>
    intro h buf _ _
    simp [writeSeq_nil]
  | cons v tl ih =>
    intro h buf hm1 hlen
    simp only [List.length_cons] at hlen
    have hlen' : h + 1 + ((tl.length : Int) + 1) ≤ (buf.length : Int) := by
      push_cast at hlen ⊢
      omega
    have hh1 : 0 ≤ h + 1 := by omega
    have hh2 : h + 1 < (buf.length : Int) := by omega
    have hnext : Next 1 h buf.length = h + 1 := Next_one_eq hh1 hh2
    rw [writeSeq_cons, hnext]
    set k := (h + 1).toNat with hk
    have hkl : k < buf.length := by omega
    have hset : buf.set k (some v) = buf.take k ++ some v :: buf.drop (k + 1) := by
      rw [List.set_eq_take_append_cons_drop, if_pos hkl]
    have hlentake : (buf.take k).length = k := by
      simp [List.length_take]
      omega
    have h1 : (buf.take k ++ some v :: buf.drop (k + 1)).take (k + 1) = buf.take k ++ [some v] := by
      rw [List.take_append_eq_append_take, hlentake]
      have he : k + 1 - k = 1 := by omega
      rw [List.take_of_length_le (by omega), he]
      rfl
    have h2 : ∀ t : Nat, (buf.take k ++ some v :: buf.drop (k + 1)).drop (k + 1 + t) =
        buf.drop (k + 1 + t) := by
      intro t
      rw [List.drop_append_eq_append_drop, hlentake]
      have e1 : k + 1 + t - k = 1 + t := by omega
      rw [List.drop_of_length_le (by omega), e1]
      simp only [List.nil_append]
      have e2 : (some v :: buf.drop (k + 1)).drop (1 + t) = (buf.drop (k + 1)).drop t := by
        rw [Nat.add_comm 1 t]
        rfl
      rw [e2, List.drop_drop]
    have htk : ((h + 1) + 1).toNat = k + 1 := by omega
    rw [ih (h + 1) (buf.set k (some v)) (by omega)
        (by simp only [List.length_set]; omega)]
    rw [htk, hset, h1, h2, Prod.mk.injEq]
    constructor
    · simp only [List.length_cons]
      omega
    · have harith : k + 1 + tl.length = k + (tl.length + 1) := by omega
      rw [harith]
      simp only [List.map_cons, List.append_assoc, List.cons_append, List.nil_append,
        List.singleton_append, List.length_cons]

theorem addSeq_spec : ∀ (vs : List α) (b : Ring α), 0 ≤ b.size →
    b.size + (vs.length : Int) ≤ (b.buf.length : Int) →
    addSeq b vs = ({ head := (writeSeq b.head b.buf vs).1, size := b.size + vs.length,
                     buf := (writeSeq b.head b.buf vs).2 }, none) := by
  intro vs
  induction vs with
  | nil =>
    intro b h0 hfit
    show (b, none) = _
    rw [writeSeq_nil]
    simp
  | cons v tl ih =>
    intro b h0 hfit
    simp only [List.length_cons] at hfit
    have hguard : ¬ ((b.buf.length : Int) ≤ b.size) := by
      push_cast at hfit
      omega
    set b2 : Ring α := { head := Next 1 b.head b.buf.length, size := b.size + 1, buf := b.buf.set (Next 1 b.head b.buf.length).toNat (some v) } with hb2
    have hadd : b.Add v = (b2, none) := by
      unfold Ring.Add
      rw [if_neg hguard]
    unfold addSeq
    rw [hadd]
    simp only []
    rw [ih b2 (by simp [hb2]; omega)
        (by simp only [hb2, List.length_set]; push_cast at hfit ⊢; omega)]
    rw [writeSeq_cons]
    simp only [hb2, Prod.mk.injEq, Ring.mk.injEq, List.length_cons, true_and, and_true]
    push_cast
    ring

theorem goCopy_fst (dst src : List β) : (goCopy dst src).1 = min dst.length src.length := rfl

theorem goCopy_snd (dst src : List β) :
    (goCopy dst src).2 = src.take (min dst.length src.length) ++ dst.drop (min dst.length src.length) := rfl

theorem goCopy_snd_length (dst src : List β) : (goCopy dst src).2.length = dst.length := by
  rw [goCopy_snd]
  simp only [List.length_append, List.length_take, List.length_drop]
  omega

theorem addAllLoopAux_nil (fuel : Nat) (head size : Int) (buf : List (Option α)) :
    addAllLoopAux fuel head size buf [] = some (head, size, buf, []) := by
  cases fuel <;> rfl

theorem writeSeq_head_congr {h h2 : Int} (buf : List (Option α)) (v : α) (vs : List α)
    (he : Next 1 h buf.length = Next 1 h2 buf.length) :
    writeSeq h buf (v :: vs) = writeSeq h2 buf (v :: vs) := by
  rw [writeSeq_cons, writeSeq_cons, he]

theorem Next_add_span (head next : Int) (n : Nat) {cap : Int} (hcap : 0 < cap)
    (hnext : Next 1 head cap = next) (h1 : 1 ≤ (n : Int)) (h2 : next + n ≤ cap) (h0 : 0 ≤ next) :
    Next n head cap = next + n - 1 := by
  rw [Next_eq_emod _ _ hcap]
  rw [Next_eq_emod _ _ hcap] at hnext
  have he : (head + (n : Int)) % cap = ((head + 1) % cap + ((n : Int) - 1)) % cap := by
    rw [Int.emod_add_emod]
    congr 1
    ring
  rw [he, hnext, Int.emod_eq_of_lt (by omega) (by omega)]
  ring

/-- One copy span of the `AddAll` loop, expressed as sequential writes. -/
theorem span_writeSeq (v : α) (vs : List α) (head next : Int) (n : Nat) (buf : List (Option α))
    (hnext : Next 1 head (buf.length : Int) = next)
    (h0 : 0 ≤ next) (h1 : next < (buf.length : Int))
    (hn1 : 1 ≤ n) (hn2 : next + (n : Int) ≤ (buf.length : Int)) (hn3 : n ≤ (v :: vs).length) :
    writeSeq head buf ((v :: vs).take n) =
      (next + n - 1,
       buf.take next.toNat ++ ((v :: vs).take n).map some ++ buf.drop (next.toNat + n)) := by
  obtain ⟨m, rfl⟩ : ∃ m, n = m + 1 := ⟨n - 1, by omega⟩
  rw [List.take_succ_cons]
  have hcong : writeSeq head buf (v :: vs.take m) = writeSeq (next - 1) buf (v :: vs.take m) := by
    refine writeSeq_head_congr buf v _ ?_
    rw [hnext, Next_one_pred h0 h1]
  rw [hcong]
  have hlentake : (v :: vs.take m).length = m + 1 := by
    simp only [List.length_cons, List.length_take]
    simp only [List.length_cons] at hn3
    omega
  rw [writeSeq_block (v :: vs.take m) (next - 1) buf (by omega)
      (by rw [hlentake]; push_cast; omega)]
  have e1 : (next - 1) + 1 = next := by ring
  rw [Prod.mk.injEq]
  constructor
  · rw [hlentake]
    push_cast
    ring
  · rw [e1, hlentake]

theorem addAllLoopAux_cons (f : Nat) (head size : Int) (buf : List (Option α)) (v : α) (vs : List α) :
    addAllLoopAux (f + 1) head size buf (v :: vs) =
      (let next := Next 1 head buf.length
       let c := goCopy (buf.drop next.toNat) ((v :: vs).map some)
       if c.1 = 0 then none
       else
         match addAllLoopAux f (Next c.1 head buf.length) (size + c.1)
             (buf.take next.toNat ++ c.2) ((v :: vs).drop c.1) with
         | none => none
         | some (h2, s2, b2, spans) => some (h2, s2, b2, c.1 :: spans)) := rfl

theorem addAllLoopAux_spec (values : List α) (fuel : Nat) (head size : Int)
    (buf : List (Option α)) (hfuel : values.length ≤ fuel) (hlen : values.length ≤ buf.length) :
    ∃ spans : List Nat,
      addAllLoopAux fuel head size buf values =
        some ((writeSeq head buf values).1, size + values.length,
              (writeSeq head buf values).2, spans) ∧
      spans.length ≤ 2 ∧ (∀ n ∈ spans, 0 < n) := by
  match values with
  | [] =>
    refine ⟨[], ?_, by simp, by simp⟩
    rw [addAllLoopAux_nil, writeSeq_nil]
    simp
  | v :: vs =>
    simp only [List.length_cons] at hfuel hlen
    obtain ⟨f, rfl⟩ : ∃ f, fuel = f + 1 := ⟨fuel - 1, by omega⟩
    have hcap : 0 < (buf.length : Int) := by
      have h1 : 1 ≤ buf.length := by omega
      exact_mod_cast h1
    obtain ⟨hx0, hx1⟩ := Next_bounds 1 head hcap
    set next := Next 1 head (buf.length : Int) with hnextdef
    have hcast : (next.toNat : Int) = next := Int.toNat_of_nonneg hx0
    have hnnl : next.toNat < buf.length := by omega
    have hc1 : (goCopy (buf.drop next.toNat) ((v :: vs).map some)).1
        = min (buf.length - next.toNat) (vs.length + 1) := by
      rw [goCopy_fst]
      simp [List.length_drop, List.length_map]
    rw [addAllLoopAux_cons]
    simp only []
    rw [if_neg (by rw [hc1]; omega)]
    obtain ⟨n1, hn1def⟩ : ∃ n, (goCopy (buf.drop next.toNat) ((v :: vs).map some)).1 = n := ⟨_, rfl⟩
    rw [hn1def]
    rw [hn1def] at hc1
    have hn1pos : 0 < n1 := by omega
    have hn1le : (next : Int) + n1 ≤ (buf.length : Int) := by omega
    have hn1len : n1 ≤ vs.length + 1 := by omega
    have hspan1 := span_writeSeq v vs head next n1 buf hnextdef.symm hx0 hx1
      (by omega) hn1le (by simpa using hn1len)
    have hhead1 : Next (n1 : Int) head (buf.length : Int) = next + n1 - 1 :=
      Next_add_span head next n1 hcap hnextdef.symm (by exact_mod_cast hn1pos) hn1le hx0
    have hminval : min (buf.drop next.toNat).length ((v :: vs).map some).length = n1 := by
      rw [← hn1def, goCopy_fst]
    have hbuf1 : buf.take next.toNat ++ (goCopy (buf.drop next.toNat) ((v :: vs).map some)).2
        = buf.take next.toNat ++ ((v :: vs).take n1).map some ++ buf.drop (next.toNat + n1) := by
      rw [goCopy_snd, hminval, List.map_take, List.drop_drop, ← List.append_assoc]
    by_cases hfull : vs.length + 1 ≤ buf.length - next.toNat
    · -- one span consumes all the values
      have hn1full : n1 = vs.length + 1 := by omega
      have hdrop : (v :: vs).drop n1 = [] := by
        apply List.drop_of_length_le
        simp [hn1full]
      have htake : (v :: vs).take n1 = v :: vs := by
        apply List.take_of_length_le
        simp [hn1full]
      rw [hdrop, addAllLoopAux_nil]
      simp only []
      refine ⟨[n1], ?_, by simp, ?_⟩
      swap
      · intro x hx
        simp only [List.mem_singleton] at hx
        omega
      rw [htake] at hspan1
      rw [hspan1]
      simp only []
      rw [hbuf1, htake, hhead1, hn1full]
      simp only [List.length_cons]
    · -- the buffer end is reached: a second span finishes the job
      have hn1val : n1 = buf.length - next.toNat := by omega
      obtain ⟨f2, rfl⟩ : ∃ f2, f = f2 + 1 := ⟨f - 1, by omega⟩
      obtain ⟨w, ws, hw⟩ : ∃ w ws, (v :: vs).drop n1 = w :: ws := by
        have hlendrop : ((v :: vs).drop n1).length = vs.length + 1 - n1 := by
          simp [List.length_drop]
        cases hd : (v :: vs).drop n1 with
        | nil => rw [hd] at hlendrop; simp at hlendrop; omega
        | cons w ws => exact ⟨w, ws, rfl⟩
      have hws_len : ws.length + 1 = vs.length + 1 - n1 := by
        have hl := congrArg List.length hw
        simp only [List.length_drop, List.length_cons] at hl
        omega
      have hlen2nn : ws.length + 1 ≤ next.toNat := by omega
      rw [hw, addAllLoopAux_cons]
      simp only []
      set buf2 := buf.take next.toNat ++ (goCopy (buf.drop next.toNat) ((v :: vs).map some)).2 with hbuf2def
      have hbuf2len : buf2.length = buf.length := by
        rw [hbuf2def, List.length_append, goCopy_snd_length]
        simp only [List.length_take, List.length_drop]
        omega
      have hhead2 : Next (n1 : Int) head (buf.length : Int) = (buf.length : Int) - 1 := by
        rw [hhead1, hn1val]
        push_cast [hnnl.le]
        omega
      have hnext2 : Next 1 ((buf.length : Int) - 1) (buf.length : Int) = 0 := by
        rw [Next_eq_emod _ _ hcap]
        have e : ((buf.length : Int) - 1) + 1 = (buf.length : Int) := by ring
        rw [e, Int.emod_self]
      rw [hbuf2len, hhead2, hnext2]
      simp only [Int.toNat_zero, List.drop_zero, List.take_zero, List.nil_append]
      have hc2 : (goCopy buf2 ((w :: ws).map some)).1 = ws.length + 1 := by
        rw [goCopy_fst]
        simp only [List.length_map, List.length_cons, hbuf2len]
        omega
      rw [if_neg (by rw [hc2]; omega)]
      have hdrop2 : (w :: ws).drop (goCopy buf2 ((w :: ws).map some)).1 = [] := by
        apply List.drop_of_length_le
        rw [hc2]
        simp
      rw [hdrop2, addAllLoopAux_nil]
      simp only []
      refine ⟨[n1, ws.length + 1], ?_, by simp, ?_⟩
      swap
      · intro x hx
        simp only [List.mem_cons, List.mem_singleton, List.not_mem_nil, or_false] at hx
        rcases hx with h | h <;> omega
      -- identify the final head and buffer with the two-span sequential writes
      have hsplitv : writeSeq head buf (v :: vs)
          = writeSeq ((buf.length : Int) - 1) buf2 (w :: ws) := by
        conv_lhs => rw [← List.take_append_drop n1 (v :: vs)]
        rw [writeSeq_append, hspan1]
        simp only []
        rw [hw, ← hbuf1]
        have e2 : next + (n1 : Int) - 1 = (buf.length : Int) - 1 := by
          rw [hn1val]
          push_cast [hnnl.le]
          omega
        rw [e2]
      have hspan2 := span_writeSeq w ws ((buf.length : Int) - 1) 0 (ws.length + 1) buf2
        (by rw [hbuf2len]; exact hnext2) le_rfl (by rw [hbuf2len]; exact hcap)
        (by omega) (by rw [hbuf2len]; push_cast; omega) (by simp)
      have htake2 : (w :: ws).take (ws.length + 1) = w :: ws := by
        apply List.take_of_length_le
        simp
      rw [htake2] at hspan2
      rw [hsplitv, hspan2]
      simp only [List.take_zero, List.nil_append, Int.toNat_zero, List.drop_zero, Nat.zero_add]
      rw [hc2]
      have hhead3 : Next ((ws.length : Int) + 1) ((buf.length : Int) - 1) (buf.length : Int)
          = (ws.length : Int) := by
        have hn := Next_add_span ((buf.length : Int) - 1) 0 (ws.length + 1) hcap
          (by rw [← hbuf2len]; rw [hbuf2len]; exact hnext2) (by push_cast; omega)
          (by push_cast; omega) le_rfl
        push_cast at hn ⊢
        rw [hn]
        ring
      have hcbuf : (goCopy buf2 ((w :: ws).map some)).2
          = (w :: ws).map some ++ buf2.drop (ws.length + 1) := by
        rw [goCopy_snd]
        have hm : min buf2.length ((w :: ws).map some).length = ws.length + 1 := by
          rw [← goCopy_fst, hc2]
        rw [hm, List.take_of_length_le (by simp)]
      rw [hcbuf]
      have hh4 : Next ((ws.length + 1 : Nat) : Int) ((buf.length : Int) - 1) (buf.length : Int)
          = 0 + ((ws.length + 1 : Nat) : Int) - 1 := by
        push_cast
        rw [hhead3]
        ring
      rw [hh4]
      have hsz : size + (n1 : Int) + ((ws.length + 1 : Nat) : Int)
          = size + ((v :: vs).length : Int) := by
        simp only [List.length_cons]
        push_cast
        omega
      rw [hsz]

/-- Under the `Full` pre-check, `AddAll` succeeds and produces exactly the
state of sequential `Add` calls, in at most two positive copy spans. -/
theorem AddAll_spec {α : Type} {b : Ring α} (values : List α) (h0 : 0 ≤ b.size)
    (hfit : b.size + (values.length : Int) ≤ (b.buf.length : Int)) :
    b.AddAll values = some ((addSeq b values).1, none) ∧
    (addSeq b values).2 = none ∧
    (b.AddAllSpans values).length ≤ 2 ∧
    (∀ n ∈ b.AddAllSpans values, 0 < n) := by
  have hlenN : values.length ≤ b.buf.length := by
    have : (values.length : Int) ≤ (b.buf.length : Int) := by omega
    exact_mod_cast this
  obtain ⟨spans, hloop, hsp2, hsppos⟩ :=
    addAllLoopAux_spec values values.length b.head b.size b.buf le_rfl hlenN
  have hseq := addSeq_spec values b h0 hfit
  unfold Ring.AddAll Ring.AddAllSpans
  rw [if_neg (by omega), if_neg (by omega), hloop, hseq]
  simp only []
  exact ⟨by simp, by simp, hsp2, hsppos⟩

theorem WF_addAll {α : Type} {b b2 : Ring α} {vs : List α} {e : Option GoError}
    (h : b.WF) (hsc : b.AddAll vs = some (b2, e)) : b2.WF := by
  by_cases hover : (b.buf.length : Int) < b.size + vs.length
  · unfold Ring.AddAll at hsc
    rw [if_pos hover] at hsc
    injection hsc with hsc
    injection hsc with hb he
    exact hb ▸ h
  · obtain ⟨hall, _, _, _⟩ := AddAll_spec vs h.1 (by omega)
    rw [hall] at hsc
    injection hsc with hsc
    injection hsc with hb he
    rw [← hb]
    exact WF_addSeq vs b h

/-! ### `SetCapacity` characterization -/

theorem onePiece_getElem (buf nbuf : List (Option α)) (t h1p j : Nat)
    (hja : j < nbuf.length) (hjb : t + j < h1p) (hjc : t + j < buf.length) :
    (goCopy nbuf ((buf.take h1p).drop t)).2[j]? = buf[t + j]? := by
  rw [goCopy_snd]
  rw [List.getElem?_append_left
      (by simp only [List.length_take, List.length_drop]; omega)]
  rw [List.getElem?_take_of_lt
      (by simp only [List.length_take, List.length_drop]; omega)]
  rw [List.getElem?_drop, List.getElem?_take_of_lt hjb]

theorem twoPiece_getElem_left (buf nbuf : List (Option α)) (t h1p j : Nat)
    (hja : j < nbuf.length) (hjb : t + j < buf.length) :
    ((goCopy nbuf (buf.drop t)).2.take (goCopy nbuf (buf.drop t)).1 ++
      (goCopy ((goCopy nbuf (buf.drop t)).2.drop (goCopy nbuf (buf.drop t)).1)
        (buf.take h1p)).2)[j]? = buf[t + j]? := by
  have hn1 : (goCopy nbuf (buf.drop t)).1 = min nbuf.length (buf.length - t) := by
    rw [goCopy_fst, List.length_drop]
  have hl2 : (goCopy nbuf (buf.drop t)).2.length = nbuf.length := goCopy_snd_length _ _
  have hjn1 : j < (goCopy nbuf (buf.drop t)).1 := by omega
  rw [List.getElem?_append_left (by simp only [List.length_take]; omega)]
  rw [List.getElem?_take_of_lt hjn1, goCopy_snd]
  rw [List.getElem?_append_left
      (by simp only [List.length_take, List.length_drop]; omega)]
  rw [List.getElem?_take_of_lt (by simp only [List.length_drop]; omega)]
  rw [List.getElem?_drop]

theorem twoPiece_getElem_right (buf nbuf : List (Option α)) (t h1p j : Nat)
    (hn1j : min nbuf.length (buf.length - t) ≤ j) (hja : j < nbuf.length)
    (hjb : j - min nbuf.length (buf.length - t) < h1p)
    (hjc : j - min nbuf.length (buf.length - t) < buf.length) :
    ((goCopy nbuf (buf.drop t)).2.take (goCopy nbuf (buf.drop t)).1 ++
      (goCopy ((goCopy nbuf (buf.drop t)).2.drop (goCopy nbuf (buf.drop t)).1)
        (buf.take h1p)).2)[j]? = buf[j - min nbuf.length (buf.length - t)]? := by
  have hn1 : (goCopy nbuf (buf.drop t)).1 = min nbuf.length (buf.length - t) := by
    rw [goCopy_fst, List.length_drop]
  have hl2 : (goCopy nbuf (buf.drop t)).2.length = nbuf.length := goCopy_snd_length _ _
  rw [List.getElem?_append_right (by simp only [List.length_take]; omega)]
  have htk : ((goCopy nbuf (buf.drop t)).2.take (goCopy nbuf (buf.drop t)).1).length
      = (goCopy nbuf (buf.drop t)).1 := by
    simp only [List.length_take]
    omega
  rw [htk, goCopy_snd]
  have hlend : ((goCopy nbuf (buf.drop t)).2.drop (goCopy nbuf (buf.drop t)).1).length
      = nbuf.length - (goCopy nbuf (buf.drop t)).1 := by
    simp only [List.length_drop, hl2]
  rw [List.getElem?_append_left
      (by simp only [List.length_take, hlend]; omega)]
  rw [List.getElem?_take_of_lt (by simp only [hlend, List.length_take]; omega)]
  rw [List.getElem?_take_of_lt (by omega), hn1]

theorem twoPiece_length (buf nbuf : List (Option α)) (t h1p : Nat) :
    ((goCopy nbuf (buf.drop t)).2.take (goCopy nbuf (buf.drop t)).1 ++
      (goCopy ((goCopy nbuf (buf.drop t)).2.drop (goCopy nbuf (buf.drop t)).1)
        (buf.take h1p)).2).length = nbuf.length := by
  rw [List.length_append, goCopy_snd_length]
  have h1 : (goCopy nbuf (buf.drop t)).1 ≤ nbuf.length := by
    rw [goCopy_fst]
    omega
  have h2 : (goCopy nbuf (buf.drop t)).2.length = nbuf.length := goCopy_snd_length _ _
  simp only [List.length_take, List.length_drop, h2]
  omega

theorem neg_one_emod {s : Int} (hs : 0 < s) : (-1 : Int) % s = s - 1 := by
  have h4 : (-1 + s * 1) % s = (-1 : Int) % s := Int.add_mul_emod_self_left ..
  have h5 : (-1 + s * 1 : Int) = s - 1 := by ring
  rw [h5] at h4
  rw [← h4, Int.emod_eq_of_lt (by omega) (by omega)]

/-- Full characterization of a successful `SetCapacity` on a non-empty
well-formed ring: size preserved, capacity clamped, and – unless the
clamped capacity equals the current one, in which case nothing changes –
the live window is linearized to the front of the new buffer. -/
theorem SetCapacity_spec {α : Type} {b : Ring α} (c : Int) (hwf : b.WF) (hs : 0 < b.size) :
    ∃ b2, b.SetCapacity c = some b2 ∧
      b2.size = b.size ∧
      (b2.buf.length : Int) = (if c < b.size then b.size else c) ∧
      ((if c < b.size then b.size else c) = (b.buf.length : Int) → b2 = b) ∧
      ((if c < b.size then b.size else c) ≠ (b.buf.length : Int) →
        b2.head = b.size - 1 ∧
        ∀ j : Nat, (j : Int) < b.size →
          b2.buf[j]? =
            b.buf[((b.head - b.size + 1 + j) % (b.buf.length : Int)).toNat]?) := by
  obtain ⟨h0, h1, h2, h3⟩ := hwf
  obtain ⟨hh0, hh1⟩ := h3 hs
  have hL : 0 < (b.buf.length : Int) := by omega
  have htail : Index (-1) b.head b.size (b.buf.length : Int)
      = (b.head - b.size + 1) % (b.buf.length : Int) := by
    rw [Index_eq_emod _ hs hh0 hh1 h1, neg_one_emod hs]
    congr 1
    ring
  have hclge : b.size ≤ (if c < b.size then b.size else c) := by split <;> omega
  unfold Ring.SetCapacity
  simp only []
  by_cases hnoop : (if c < b.size then b.size else c) = (b.buf.length : Int)
  · rw [if_pos hnoop]
    exact ⟨b, rfl, rfl, hnoop.symm ▸ rfl, fun _ => rfl, fun hne => absurd hnoop hne⟩
  · rw [if_neg hnoop, if_neg (show ¬ ((if c < b.size then b.size else c) < 0) by omega)]
    rw [htail]
    have hcltn : ((if c < b.size then b.size else c).toNat : Int)
        = (if c < b.size then b.size else c) := Int.toNat_of_nonneg (by omega)
    rcases le_or_lt 0 (b.head - b.size + 1) with hc0 | hc0
    · have htv : (b.head - b.size + 1) % (b.buf.length : Int) = b.head - b.size + 1 :=
        Int.emod_eq_of_lt hc0 (by omega)
      rw [htv]
      by_cases hsz1 : 1 < b.size
      · -- one contiguous piece
        rw [if_pos (by omega), if_pos ⟨by omega, by omega⟩]
        refine ⟨_, rfl, rfl, ?_, fun h => absurd h hnoop, fun _ => ⟨rfl, ?_⟩⟩
        · simp only [goCopy_snd_length, List.length_replicate]
          exact hcltn
        · intro j hj
          simp only []
          have he : ((b.head - b.size + 1 + (j : Int)) % (b.buf.length : Int))
              = b.head - b.size + 1 + (j : Int) :=
            Int.emod_eq_of_lt (by omega) (by omega)
          rw [he]
          have hidx : (b.head - b.size + 1 + (j : Int)).toNat
              = (b.head - b.size + 1).toNat + j := by omega
          rw [hidx]
          exact onePiece_getElem b.buf _ _ _ j
            (by simp only [List.length_replicate]; omega) (by omega) (by omega)
      · -- size = 1 and the window is a single slot: the two-piece branch runs
        rw [if_neg (by omega), if_pos ⟨by omega, by omega, by omega, by omega⟩]
        refine ⟨_, rfl, rfl, ?_, fun h => absurd h hnoop, fun _ => ⟨rfl, ?_⟩⟩
        · simp only [twoPiece_length, List.length_replicate]
          exact hcltn
        · intro j hj
          simp only []
          have hj0 : j = 0 := by omega
          subst hj0
          have he : ((b.head - b.size + 1 + ((0 : Nat) : Int)) % (b.buf.length : Int))
              = b.head - b.size + 1 :=
            by push_cast; rw [add_zero]; exact Int.emod_eq_of_lt hc0 (by omega)
          rw [he]
          have hidx : (b.head - b.size + 1).toNat + 0 = (b.head - b.size + 1).toNat := by omega
          rw [show ((b.head - b.size + 1).toNat : Nat) = (b.head - b.size + 1).toNat + 0 by omega]
          exact twoPiece_getElem_left b.buf _ _ _ 0
            (by simp only [List.length_replicate]; omega) (by omega)
    · -- the window wraps: two pieces
      have htv : (b.head - b.size + 1) % (b.buf.length : Int)
          = b.head - b.size + 1 + (b.buf.length : Int) := by
        have ha : (b.head - b.size + 1 + (b.buf.length : Int)) % (b.buf.length : Int)
            = (b.head - b.size + 1) % (b.buf.length : Int) := Int.add_emod_self
        rw [← ha, Int.emod_eq_of_lt (by omega) (by omega)]
      rw [htv]
      rw [if_neg (by omega), if_pos ⟨by omega, by omega, by omega, by omega⟩]
      refine ⟨_, rfl, rfl, ?_, fun h => absurd h hnoop, fun _ => ⟨rfl, ?_⟩⟩
      · simp only [twoPiece_length, List.length_replicate]
        exact hcltn
      · intro j hj
        simp only []
        have htnn : ((b.head - b.size + 1 + (b.buf.length : Int)).toNat : Int)
            = b.head - b.size + 1 + (b.buf.length : Int) := Int.toNat_of_nonneg (by omega)
        rcases le_or_lt 0 (b.head - b.size + 1 + (j : Int)) with hreg | hreg
        · -- second region: the element is among the first `head+1` slots
          have he : ((b.head - b.size + 1 + (j : Int)) % (b.buf.length : Int))
              = b.head - b.size + 1 + (j : Int) :=
            Int.emod_eq_of_lt hreg (by omega)
          rw [he]
          have hmin : min (List.replicate (if c < b.size then b.size else c).toNat
              (none : Option α)).length (b.buf.length -
                (b.head - b.size + 1 + (b.buf.length : Int)).toNat)
              = b.buf.length - (b.head - b.size + 1 + (b.buf.length : Int)).toNat := by
            simp only [List.length_replicate]
            omega
          have hr := twoPiece_getElem_right b.buf
            (List.replicate (if c < b.size then b.size else c).toNat none)
            (b.head - b.size + 1 + (b.buf.length : Int)).toNat (b.head + 1).toNat j
            (by rw [hmin]; omega) (by simp only [List.length_replicate]; omega)
            (by rw [hmin]; omega) (by rw [hmin]; omega)
          rw [hmin] at hr
          rw [hr]
          congr 1
          omega
        · -- first region: the element is in the tail run at the buffer end
          have he : ((b.head - b.size + 1 + (j : Int)) % (b.buf.length : Int))
              = b.head - b.size + 1 + (j : Int) + (b.buf.length : Int) := by
            have ha : (b.head - b.size + 1 + (j : Int) + (b.buf.length : Int))
                % (b.buf.length : Int)
                = (b.head - b.size + 1 + (j : Int)) % (b.buf.length : Int) :=
              Int.add_emod_self
            rw [← ha, Int.emod_eq_of_lt (by omega) (by omega)]
          rw [he]
          have hidx : (b.head - b.size + 1 + (j : Int) + (b.buf.length : Int)).toNat
              = (b.head - b.size + 1 + (b.buf.length : Int)).toNat + j := by omega
          rw [hidx]
          exact twoPiece_getElem_left b.buf _ _ _ j
            (by simp only [List.length_replicate]; omega) (by omega)

theorem WF_setCapacity {α : Type} {b b2 : Ring α} {c : Int}
    (h : b.WF) (hsc : b.SetCapacity c = some b2) : b2.WF := by
  rcases lt_or_le 0 b.size with hs | hs
  · obtain ⟨b2', heq, hsz, hlen, hnoop, hchg⟩ := SetCapacity_spec c h hs
    rw [heq] at hsc
    injection hsc with hb
    subst hb
    have hclge : b.size ≤ (if c < b.size then b.size else c) := by split <;> omega
    by_cases hcl : (if c < b.size then b.size else c) = (b.buf.length : Int)
    · rw [hnoop hcl]
      exact h
    · obtain ⟨hhd, _⟩ := hchg hcl
      refine ⟨by omega, by omega, ?_, ?_⟩
      · rw [hsz, hhd]
        constructor <;> intro <;> omega
      · intro _
        rw [hhd, hlen]
        omega
  · obtain ⟨h0, h1, h2, h3⟩ := h
    have hsz0 : b.size = 0 := by omega
    have hhd : b.head = -1 := h2.mp hsz0
    unfold Ring.SetCapacity at hsc
    simp only [] at hsc
    by_cases hnoop : (if c < b.size then b.size else c) = (b.buf.length : Int)
    · rw [if_pos hnoop] at hsc
      injection hsc with hb
      subst hb
      exact ⟨h0, h1, h2, h3⟩
    · rw [if_neg hnoop, if_neg (show ¬ ((if c < b.size then b.size else c) < 0) by
        split <;> omega)] at hsc
      have htl : Index (-1) b.head b.size (b.buf.length : Int) = -1 := by
        unfold Index
        rw [if_pos hsz0]
      rw [htl, hhd] at hsc
      rw [if_neg (show ¬ ((-1 : Int) < -1) by omega)] at hsc
      rw [if_neg (fun hcon => absurd hcon.1 (by omega))] at hsc
      exact absurd hsc (by simp)

theorem reachable_WF {α : Type} {b : Ring α} (h : Reachable b) : b.WF := by
  induction h with
  | new c => exact WF_new α c
  | add b v hb ih => exact WF_add v ih
  | addAll b b2 vs e hb hsc ih => exact WF_addAll ih hsc
  | remove b n hb ih => exact WF_remove n ih
  | push b v hb ih => exact WF_push v ih
  | setCapacity b b2 c hb hsc ih => exact WF_setCapacity ih hsc

/-! ### Reading after a single overwriting write at the next slot -/

theorem Get_set_next_zero {α : Type} (b : Ring α) (v : α) {s2 : Int}
    (hcap : 0 < (b.buf.length : Int)) (hs2a : 0 < s2) (hs2b : s2 ≤ (b.buf.length : Int)) :
    Ring.Get { head := Next 1 b.head b.buf.length, size := s2, buf := b.buf.set (Next 1 b.head b.buf.length).toNat (some v) } 0 = .Ok (some v) := by
  obtain ⟨hn0, hn1⟩ := Next_bounds 1 b.head hcap
  have hlen : (b.buf.set (Next 1 b.head b.buf.length).toNat (some v)).length = b.buf.length :=
    List.length_set ..
  have hwf2 : Ring.WF { head := Next 1 b.head b.buf.length, size := s2, buf := b.buf.set (Next 1 b.head b.buf.length).toNat (some v) } := by
    refine WF_mk (by omega) (by rw [hlen]; omega) (by constructor <;> intro <;> omega)
      (fun _ => by rw [hlen]; exact ⟨hn0, hn1⟩)
  rw [Get_eq_getD hwf2 hs2a 0]
  simp only [hlen]
  rw [Int.zero_emod, sub_zero, Int.emod_eq_of_lt hn0 hn1]
  rw [List.getD_eq_getElem?_getD, List.getElem?_set_self (by omega)]
  rfl

theorem Get_set_next_shift {α : Type} (b : Ring α) (v : α) {i s2 : Int}
    (hwf : b.WF) (hs : 0 < b.size) (h1 : 1 ≤ i) (h2 : i < s2)
    (h3 : s2 ≤ (b.buf.length : Int)) (h4 : i ≤ b.size) :
    Ring.Get { head := Next 1 b.head b.buf.length, size := s2, buf := b.buf.set (Next 1 b.head b.buf.length).toNat (some v) } i = b.Get (i - 1) := by
  obtain ⟨h0, hsl, hiff, hhb⟩ := hwf
  obtain ⟨hh0, hh1⟩ := hhb hs
  have hcap : 0 < (b.buf.length : Int) := by omega
  obtain ⟨hn0, hn1⟩ := Next_bounds 1 b.head hcap
  have hlen : (b.buf.set (Next 1 b.head b.buf.length).toNat (some v)).length = b.buf.length :=
    List.length_set ..
  have hwf2 : Ring.WF { head := Next 1 b.head b.buf.length, size := s2, buf := b.buf.set (Next 1 b.head b.buf.length).toNat (some v) } := by
    refine WF_mk (by omega) (by rw [hlen]; omega) (by constructor <;> intro <;> omega)
      (fun _ => by rw [hlen]; exact ⟨hn0, hn1⟩)
  rw [Get_eq_getD hwf2 (by show (0 : Int) < s2; omega) i]
  rw [Get_eq_getD ⟨h0, hsl, hiff, hhb⟩ hs (i - 1)]
  simp only [hlen]
  have hi2 : i % s2 = i := Int.emod_eq_of_lt (by omega) h2
  have hi1 : (i - 1) % b.size = i - 1 := Int.emod_eq_of_lt (by omega) (by omega)
  rw [hi2, hi1]
  have hpe : (Next 1 b.head b.buf.length - i) % (b.buf.length : Int)
      = (b.head - (i - 1)) % (b.buf.length : Int) := by
    rw [Next_eq_emod _ _ hcap, sub_eq_add_neg, Int.emod_add_emod]
    congr 1
    ring
  rw [hpe]
  set p := (b.head - (i - 1)) % (b.buf.length : Int) with hp
  have hp0 : 0 ≤ p := Int.emod_nonneg _ (by omega)
  have hp1 : p < (b.buf.length : Int) := Int.emod_lt_of_pos _ hcap
  have hpne : p ≠ Next 1 b.head b.buf.length := by
    have hq : (Next 1 b.head b.buf.length - i) % (b.buf.length : Int) = p := hpe
    rcases le_or_lt 0 (Next 1 b.head b.buf.length - i) with hr | hr
    · rw [Int.emod_eq_of_lt hr (by omega)] at hq
      omega
    · have ha : (Next 1 b.head b.buf.length - i + (b.buf.length : Int))
          % (b.buf.length : Int) = (Next 1 b.head b.buf.length - i) % (b.buf.length : Int) :=
        Int.add_emod_self
      rw [← ha, Int.emod_eq_of_lt (by omega) (by omega)] at hq
      omega
  rw [List.getD_eq_getElem?_getD, List.getD_eq_getElem?_getD,
    List.getElem?_set_ne (by omega)]

theorem Remove_pos_spec {α : Type} {b : Ring α} {count : Int} (hc1 : 0 < count)
    (hc2 : count < b.size) :
    b.Remove count = { b with size := b.size - count } := by
  unfold Ring.Remove
  rw [if_neg (by omega)]
  simp only []
  rw [if_neg (by omega)]

theorem Remove_Get {α : Type} {b : Ring α} {count : Int} (hwf : b.WF) (hc1 : 0 < count)
    (hc2 : count < b.size) (i : Int) (hi0 : 0 ≤ i) (hi1 : i < b.size - count) :
    (b.Remove count).Get i = b.Get i := by
  rw [Remove_pos_spec hc1 hc2]
  obtain ⟨h0, h1, h2, h3⟩ := hwf
  obtain ⟨hh0, hh1⟩ := h3 (by omega)
  have hwf2 : Ring.WF { b with size := b.size - count } := by
    refine WF_mk (by omega) (by show b.size - count ≤ (b.buf.length : Int); omega)
      (by constructor <;> intro <;> omega) (fun _ => ⟨hh0, hh1⟩)
  rw [Get_eq_getD hwf2 (by show (0 : Int) < b.size - count; omega) i]
  rw [Get_eq_getD ⟨h0, h1, h2, h3⟩ (by omega) i]
  have hi2 : i % (b.size - count) = i := Int.emod_eq_of_lt hi0 (by omega)
  have hi3 : i % b.size = i := Int.emod_eq_of_lt hi0 (by omega)
  rw [hi2, hi3]

/-! ## Claim theorems -/

/-- C1: the claim "SetCapacity never fails, including on the empty ring" is
contradicted by the code: on the empty ring `New 3` (size 0, head -1) with a
different non-negative capacity, `tail` is the `-1` sentinel and the Go
slice expression `b.buf[tail:]` is out of range, a run-time panic (`none`
in the model). -/
theorem claim_C1 : (New 3 : Ring Int).SetCapacity 5 = none := by decide

/-- C3: `Index(i, head, size, capacity)` returns `-1` when `size = 0`;
otherwise, on every valid state, the offset is folded into `[0, size)` by
remainder-then-add-size and the result is `head - r` folded into
`[0, capacity)` (the Euclidean remainder); the documented vector at
capacity 10, size 5, head 5 holds. -/
theorem claim_C3 :
    (∀ i head capacity : Int, Index i head 0 capacity = -1) ∧
    (∀ i head size capacity : Int,
      0 ≤ head → head < capacity → 0 < size → size ≤ capacity →
      (0 ≤ (if i.tmod size < 0 then i.tmod size + size else i.tmod size) ∧
       (if i.tmod size < 0 then i.tmod size + size else i.tmod size) < size ∧
       Index i head size capacity =
         (head - (if i.tmod size < 0 then i.tmod size + size else i.tmod size))
           % capacity)) ∧
    (Index 0 5 5 10 = 5 ∧ Index 1 5 5 10 = 4 ∧ Index 4 5 5 10 = 1 ∧
     Index (-1) 5 5 10 = 1 ∧ Index (-2) 5 5 10 = 2 ∧ Index 5 5 5 10 = 5 ∧
     Index (-51) 5 5 10 = 1) := by
  refine ⟨?_, ?_, by decide⟩
  · intro i head capacity
    unfold Index
    rw [if_pos rfl]
  · intro i head size capacity hh0 hh1 hs hsc
    rw [fold_tmod_eq_emod i hs]
    exact ⟨Int.emod_nonneg _ (by omega), Int.emod_lt_of_pos _ hs,
      Index_eq_emod i hs hh0 hh1 hsc⟩

/-- Witness for C3: the valid-state clause applied at `i = -7`, `head = 2`,
`size = 4`, `capacity = 9`. -/
theorem claim_C3_witness :
    ((0 : Int) ≤ 2 ∧ (2 : Int) < 9 ∧ (0 : Int) < 4 ∧ (4 : Int) ≤ 9) ∧
    (0 ≤ (if (-7 : Int).tmod 4 < 0 then (-7 : Int).tmod 4 + 4 else (-7 : Int).tmod 4) ∧
     (if (-7 : Int).tmod 4 < 0 then (-7 : Int).tmod 4 + 4 else (-7 : Int).tmod 4) < 4 ∧
     Index (-7) 2 4 9 =
       (2 - (if (-7 : Int).tmod 4 < 0 then (-7 : Int).tmod 4 + 4 else (-7 : Int).tmod 4)) % 9) :=
  ⟨⟨by decide, by decide, by decide, by decide⟩,
   claim_C3.2.1 (-7) 2 4 9 (by decide) (by decide) (by decide) (by decide)⟩

/-- C5: `AddAll` is all-or-nothing: on any reachable state, if
`size + len(values) > capacity` it returns `FullError` and the ring is the
unchanged receiver; in particular `New(3)` then `AddAll(0,1,2,3)` fails
with `FullError` and leaves `Size() = 0`. -/
theorem claim_C5 :
    (∀ (α : Type) (b : Ring α) (values : List α), Reachable b →
      (b.buf.length : Int) < b.size + values.length →
      b.AddAll values = some (b, some .FullError)) ∧
    ((New 3 : Ring Int).AddAll [0, 1, 2, 3] = some (New 3, some .FullError) ∧
     (New 3 : Ring Int).Size = 0) := by
  refine ⟨?_, by decide, by decide⟩
  intro α b values hr hov
  unfold Ring.AddAll
  rw [if_pos hov]

/-- Witness for C5: a full `New 1` rejects a two-element bulk add. -/
theorem claim_C5_witness :
    Reachable (New 1 : Ring Int) ∧ ((1 : Nat) : Int) < 0 + ([7, 8] : List Int).length ∧
    (New 1 : Ring Int).AddAll [7, 8] = some (New 1, some .FullError) :=
  ⟨Reachable.new 1, by decide, claim_C5.1 Int (New 1) [7, 8] (Reachable.new 1) (by decide)⟩

/-- C10: every state reachable from `New` through the package's operations
satisfies the ring invariant: `0 ≤ size ≤ len(buf)`, `size = 0` exactly
when `head` is the `-1` sentinel, and a head inside `[0, len(buf))` when
non-empty. -/
theorem claim_C10 : ∀ (α : Type) (b : Ring α), Reachable b →
    0 ≤ b.size ∧ b.size ≤ (b.buf.length : Int) ∧
    (b.size = 0 ↔ b.head = -1) ∧
    (0 < b.size → 0 ≤ b.head ∧ b.head < (b.buf.length : Int)) :=
  fun _ _ h => reachable_WF h

/-- Witness for C10: the invariant at the reachable state
`New 4` followed by `Push 7` (a no-op on the empty ring). -/
theorem claim_C10_witness :
    Reachable ((New 4 : Ring Int).Push 7) ∧
    (0 ≤ ((New 4 : Ring Int).Push 7).size ∧
     ((New 4 : Ring Int).Push 7).size ≤ (((New 4 : Ring Int).Push 7).buf.length : Int) ∧
     (((New 4 : Ring Int).Push 7).size = 0 ↔ ((New 4 : Ring Int).Push 7).head = -1) ∧
     (0 < ((New 4 : Ring Int).Push 7).size →
       0 ≤ ((New 4 : Ring Int).Push 7).head ∧
       ((New 4 : Ring Int).Push 7).head < (((New 4 : Ring Int).Push 7).buf.length : Int))) :=
  ⟨Reachable.push _ 7 (Reachable.new 4),
   claim_C10 Int _ (Reachable.push _ 7 (Reachable.new 4))⟩

/-- C4: `AddAll` is equivalent to repeated `Add`: on any reachable state,
when the values fit, it succeeds and the final state agrees with the
sequential `Add` calls on `Size` and on `Get i` for every offset in range
(in fact the states are identical), and the loop performed at most two
contiguous copy spans. -/
theorem claim_C4 : ∀ (α : Type) (b : Ring α) (values : List α), Reachable b →
    b.size + (values.length : Int) ≤ (b.buf.length : Int) →
    ∃ b2 b3, b.AddAll values = some (b2, none) ∧ addSeq b values = (b3, none) ∧
      b2.Size = b3.Size ∧
      (∀ i : Int, 0 ≤ i → i < b.size + values.length → b2.Get i = b3.Get i) ∧
      (b.AddAllSpans values).length ≤ 2 := by
  intro α b values hr hfit
  obtain ⟨h1, h2, h3, _⟩ := AddAll_spec values (reachable_WF hr).1 hfit
  refine ⟨(addSeq b values).1, (addSeq b values).1, h1, ?_, rfl, fun i _ _ => rfl, h3⟩
  cases he : addSeq b values with
  | mk x y =>
    rw [he] at h2
    simp only [] at h2
    rw [h2]

/-- Witness for C4: `New 5` with values `[1, 2, 3]`. -/
theorem claim_C4_witness :
    Reachable (New 5 : Ring Int) ∧
    (New 5 : Ring Int).size + (([1, 2, 3] : List Int).length : Int)
      ≤ ((New 5 : Ring Int).buf.length : Int) ∧
    (∃ b2 b3, (New 5 : Ring Int).AddAll [1, 2, 3] = some (b2, none) ∧
      addSeq (New 5 : Ring Int) [1, 2, 3] = (b3, none) ∧
      b2.Size = b3.Size ∧
      (∀ i : Int, 0 ≤ i → i < (New 5 : Ring Int).size + ([1, 2, 3] : List Int).length →
        b2.Get i = b3.Get i) ∧
      ((New 5 : Ring Int).AddAllSpans [1, 2, 3]).length ≤ 2) :=
  ⟨Reachable.new 5, by decide,
   claim_C4 Int (New 5) [1, 2, 3] (Reachable.new 5) (by decide)⟩

/-- C6: the zero-progress `panic(FullError)` in the `AddAll` copy loop is
unreachable: on any reachable state, once the pre-check admits the values,
`AddAll` returns (no panic) and every copy span moved at least one
element. -/
theorem claim_C6 : ∀ (α : Type) (b : Ring α) (values : List α), Reachable b →
    b.size + (values.length : Int) ≤ (b.buf.length : Int) →
    b.AddAll values ≠ none ∧ (∀ n ∈ b.AddAllSpans values, 0 < n) := by
  intro α b values hr hfit
  obtain ⟨h1, _, _, h4⟩ := AddAll_spec values (reachable_WF hr).1 hfit
  refine ⟨?_, h4⟩
  rw [h1]
  simp

/-- Witness for C6: a wrapped bulk add on a reachable ring
(`New 4`, `Add 1`, `Add 2`, `Add 3`, `Remove 2`, then three more values
wrap past the array end). -/
theorem claim_C6_witness :
    Reachable (((((New 4 : Ring Int).Add 1).1.Add 2).1.Add 3).1.Remove 2) ∧
    (((((New 4 : Ring Int).Add 1).1.Add 2).1.Add 3).1.Remove 2).size + (([7, 8, 9] : List Int).length : Int)
      ≤ ((((((New 4 : Ring Int).Add 1).1.Add 2).1.Add 3).1.Remove 2).buf.length : Int) ∧
    ((((((New 4 : Ring Int).Add 1).1.Add 2).1.Add 3).1.Remove 2).AddAll [7, 8, 9] ≠ none ∧
     (∀ n ∈ (((((New 4 : Ring Int).Add 1).1.Add 2).1.Add 3).1.Remove 2).AddAllSpans [7, 8, 9], 0 < n)) :=
  ⟨Reachable.remove _ 2 (Reachable.add _ 3 (Reachable.add _ 2 (Reachable.add _ 1 (Reachable.new 4)))),
   by decide,
   claim_C6 Int _ [7, 8, 9]
     (Reachable.remove _ 2 (Reachable.add _ 3 (Reachable.add _ 2 (Reachable.add _ 1 (Reachable.new 4)))))
     (by decide)⟩

/-- C2 counterexample: the claim as stated requires `head = size - 1` after
every `SetCapacity`, but `SetCapacity(currentCapacity)` is an early-return
no-op. The reachable ring `New 2; Add 10; Add 11; Push 12` has
`head = 0`, `size = 2`; `SetCapacity 2` leaves it unchanged, so
`head ≠ size - 1`. -/
theorem claim_C2_counterexample :
    Reachable ((((New 2 : Ring Int).Add 10).1.Add 11).1.Push 12) ∧
    ((((New 2 : Ring Int).Add 10).1.Add 11).1.Push 12).SetCapacity 2
      = some ((((New 2 : Ring Int).Add 10).1.Add 11).1.Push 12) ∧
    ¬ (((((New 2 : Ring Int).Add 10).1.Add 11).1.Push 12).head
        = ((((New 2 : Ring Int).Add 10).1.Add 11).1.Push 12).size - 1) :=
  ⟨Reachable.push _ 12 (Reachable.add _ 11 (Reachable.add _ 10 (Reachable.new 2))),
   by decide, by decide⟩

/-- C2 (amended): on every reachable ring with `size > 0`, `SetCapacity`
completes; `Size` and every `Get i` for `0 ≤ i < size` are preserved, and
the capacity becomes `newCap` clamped up to `size`. When the clamped
capacity differs from the current one the live window is linearized and
`head = size - 1`; when it is equal the call is a no-op and the ring
(including `head`) is unchanged. (The empty-ring case panics, see C1.) -/
theorem claim_C2 : ∀ (α : Type) (b : Ring α) (newCap : Int), Reachable b → 0 < b.size →
    ∃ b2, b.SetCapacity newCap = some b2 ∧
      b2.Size = b.Size ∧
      (∀ i : Int, 0 ≤ i → i < b.size → b2.Get i = b.Get i) ∧
      b2.Capacity = (if newCap < b.size then b.size else newCap) ∧
      ((if newCap < b.size then b.size else newCap) ≠ b.Capacity → b2.head = b.size - 1) ∧
      ((if newCap < b.size then b.size else newCap) = b.Capacity → b2 = b) := by
  intro α b newCap hr hs
  have hwf := reachable_WF hr
  obtain ⟨b2, heq, hsz, hlen, hnoop, hchg⟩ := SetCapacity_spec newCap hwf hs
  refine ⟨b2, heq, hsz, ?_, hlen, fun hne => (hchg hne).1, hnoop⟩
  intro i hi0 hi1
  by_cases hcl : (if newCap < b.size then b.size else newCap) = (b.buf.length : Int)
  · rw [hnoop hcl]
  · obtain ⟨hhd, hcontent⟩ := hchg hcl
    obtain ⟨h0, h1, h2, h3⟩ := hwf
    obtain ⟨hh0, hh1⟩ := h3 hs
    have hclge : b.size ≤ (if newCap < b.size then b.size else newCap) := by split <;> omega
    have hwf2 : b2.WF := WF_setCapacity ⟨h0, h1, h2, h3⟩ heq
    rw [Get_eq_getD hwf2 (by omega) i, Get_eq_getD ⟨h0, h1, h2, h3⟩ hs i]
    have hi2 : i % b2.size = i := by
      rw [hsz]
      exact Int.emod_eq_of_lt hi0 hi1
    have hi3 : i % b.size = i := Int.emod_eq_of_lt hi0 hi1
    rw [hi2, hi3, hhd, hlen]
    have hpos2 : (b.size - 1 - i) % (if newCap < b.size then b.size else newCap)
        = b.size - 1 - i := Int.emod_eq_of_lt (by omega) (by omega)
    rw [hpos2]
    have hcontent2 := hcontent (b.size - 1 - i).toNat (by omega)
    have harg : b.head - b.size + 1 + (((b.size - 1 - i).toNat : Nat) : Int)
        = b.head - i := by omega
    rw [harg] at hcontent2
    rw [List.getD_eq_getElem?_getD, List.getD_eq_getElem?_getD, hcontent2]

/-- Witness for C2: growing the reachable one-element ring
`(New 3).Add 5` to capacity 6. -/
theorem claim_C2_witness :
    Reachable ((New 3 : Ring Int).Add 5).1 ∧ 0 < ((New 3 : Ring Int).Add 5).1.size ∧
    (∃ b2, ((New 3 : Ring Int).Add 5).1.SetCapacity 6 = some b2 ∧
      b2.Size = ((New 3 : Ring Int).Add 5).1.Size ∧
      (∀ i : Int, 0 ≤ i → i < ((New 3 : Ring Int).Add 5).1.size →
        b2.Get i = ((New 3 : Ring Int).Add 5).1.Get i) ∧
      b2.Capacity = (if (6 : Int) < ((New 3 : Ring Int).Add 5).1.size
        then ((New 3 : Ring Int).Add 5).1.size else 6) ∧
      ((if (6 : Int) < ((New 3 : Ring Int).Add 5).1.size
        then ((New 3 : Ring Int).Add 5).1.size else 6) ≠ ((New 3 : Ring Int).Add 5).1.Capacity →
        b2.head = ((New 3 : Ring Int).Add 5).1.size - 1) ∧
      ((if (6 : Int) < ((New 3 : Ring Int).Add 5).1.size
        then ((New 3 : Ring Int).Add 5).1.size else 6) = ((New 3 : Ring Int).Add 5).1.Capacity →
        b2 = ((New 3 : Ring Int).Add 5).1)) :=
  ⟨Reachable.add _ 5 (Reachable.new 3), by decide,
   claim_C2 Int ((New 3 : Ring Int).Add 5).1 6 (Reachable.add _ 5 (Reachable.new 3)) (by decide)⟩

/-- C7: `Add` fails with `FullError` and changes nothing exactly when
`size = capacity`; otherwise it succeeds, advances the head one slot
modulo capacity, stores the value there (`Get 0` reads it back),
increments the size, and evicts nothing (`Get i` shifts). After `New 10`
and ten `Add i`, `Size = Capacity = 10`, `Get 0 = 9`, `Get 9 = 0`. -/
theorem claim_C7 :
    (∀ (α : Type) (b : Ring α) (v : α), Reachable b →
      ((b.size = b.Capacity → b.Add v = (b, some .FullError)) ∧
       (b.size ≠ b.Capacity →
         (b.Add v).2 = none ∧
         (b.Add v).1.head = (b.head + 1) % b.Capacity ∧
         (b.Add v).1.size = b.size + 1 ∧
         (b.Add v).1.Get 0 = .Ok (some v) ∧
         (∀ i : Int, 1 ≤ i → i ≤ b.size → (b.Add v).1.Get i = b.Get (i - 1))))) ∧
    ((addSeq (New 10 : Ring Int) [0, 1, 2, 3, 4, 5, 6, 7, 8, 9]).1.Size = 10 ∧
     (addSeq (New 10 : Ring Int) [0, 1, 2, 3, 4, 5, 6, 7, 8, 9]).1.Capacity = 10 ∧
     (addSeq (New 10 : Ring Int) [0, 1, 2, 3, 4, 5, 6, 7, 8, 9]).1.Get 0 = .Ok (some 9) ∧
     (addSeq (New 10 : Ring Int) [0, 1, 2, 3, 4, 5, 6, 7, 8, 9]).1.Get 9 = .Ok (some 0)) := by
  refine ⟨?_, by decide, by decide, by decide, by decide⟩
  intro α b v hr
  have hwf := reachable_WF hr
  obtain ⟨h0, h1, h2, h3⟩ := hwf
  constructor
  · intro hfull
    unfold Ring.Capacity at hfull
    unfold Ring.Add
    rw [if_pos (by omega)]
  · intro hne
    unfold Ring.Capacity at hne
    have hlt : b.size < (b.buf.length : Int) := by omega
    have hcap : 0 < (b.buf.length : Int) := by omega
    have hadd : b.Add v = ({ head := Next 1 b.head b.buf.length, size := b.size + 1, buf := b.buf.set (Next 1 b.head b.buf.length).toNat (some v) }, none) := by
      unfold Ring.Add
      rw [if_neg (by omega)]
    rw [hadd]
    refine ⟨rfl, ?_, rfl, ?_, ?_⟩
    · show Next 1 b.head (b.buf.length : Int) = (b.head + 1) % (b.buf.length : Int)
      exact Next_eq_emod 1 b.head hcap
    · exact Get_set_next_zero b v hcap (by omega) (by omega)
    · intro i hi1 hi2
      exact Get_set_next_shift b v ⟨h0, h1, h2, h3⟩ (by omega) hi1 (by omega) (by omega) hi2

/-- Witness for C7: the success clause at the reachable one-element ring
`(New 2).Add 4` with a second value. -/
theorem claim_C7_witness :
    Reachable ((New 2 : Ring Int).Add 4).1 ∧
    (((New 2 : Ring Int).Add 4).1.size = ((New 2 : Ring Int).Add 4).1.Capacity →
      ((New 2 : Ring Int).Add 4).1.Add 9 = (((New 2 : Ring Int).Add 4).1, some .FullError)) ∧
    (((New 2 : Ring Int).Add 4).1.size ≠ ((New 2 : Ring Int).Add 4).1.Capacity →
      (((New 2 : Ring Int).Add 4).1.Add 9).2 = none ∧
      (((New 2 : Ring Int).Add 4).1.Add 9).1.head
        = (((New 2 : Ring Int).Add 4).1.head + 1) % ((New 2 : Ring Int).Add 4).1.Capacity ∧
      (((New 2 : Ring Int).Add 4).1.Add 9).1.size = ((New 2 : Ring Int).Add 4).1.size + 1 ∧
      (((New 2 : Ring Int).Add 4).1.Add 9).1.Get 0 = .Ok (some 9) ∧
      (∀ i : Int, 1 ≤ i → i ≤ ((New 2 : Ring Int).Add 4).1.size →
        (((New 2 : Ring Int).Add 4).1.Add 9).1.Get i = ((New 2 : Ring Int).Add 4).1.Get (i - 1))) :=
  ⟨Reachable.add _ 4 (Reachable.new 2),
   (claim_C7.1 Int ((New 2 : Ring Int).Add 4).1 9 (Reachable.add _ 4 (Reachable.new 2))).1,
   (claim_C7.1 Int ((New 2 : Ring Int).Add 4).1 9 (Reachable.add _ 4 (Reachable.new 2))).2⟩

/-- C8: `Push` never changes `Size`; with capacity 0 or size 0 it is a
complete no-op; otherwise it advances the head one slot, stores the value
(`Get 0` reads it back), and when the ring is full the logical oldest is
discarded while every other element shifts one offset (`Get i` equals the
old `Get (i-1)`). -/
theorem claim_C8 : ∀ (α : Type) (b : Ring α) (v : α), Reachable b →
    (b.Push v).Size = b.Size ∧
    (b.Capacity = 0 ∨ b.Size = 0 → b.Push v = b) ∧
    (¬ (b.Capacity = 0 ∨ b.Size = 0) →
      (b.Push v).head = (b.head + 1) % b.Capacity ∧
      (b.Push v).Get 0 = .Ok (some v) ∧
      (b.Size = b.Capacity →
        ∀ i : Int, 1 ≤ i → i < b.size → (b.Push v).Get i = b.Get (i - 1))) := by
  intro α b v hr
  have hwf := reachable_WF hr
  obtain ⟨h0, h1, h2, h3⟩ := hwf
  refine ⟨?_, ?_, ?_⟩
  · unfold Ring.Push Ring.Size
    split <;> rfl
  · intro hno
    unfold Ring.Capacity Ring.Size at hno
    unfold Ring.Push
    rw [if_pos (by rcases hno with h | h <;> [left; right] <;> omega)]
  · intro hno
    unfold Ring.Capacity Ring.Size at hno
    push_neg at hno
    have hcap : 0 < (b.buf.length : Int) := by
      rcases Nat.eq_zero_or_pos b.buf.length with h | h
      · exact absurd (by exact_mod_cast h) hno.1
      · exact_mod_cast h
    have hs : 0 < b.size := by
      rcases lt_or_le 0 b.size with h | h
      · exact h
      · exact absurd (by omega) hno.2
    have hpush : b.Push v = { head := Next 1 b.head b.buf.length, size := b.size, buf := b.buf.set (Next 1 b.head b.buf.length).toNat (some v) } := by
      unfold Ring.Push
      rw [if_neg (by push_neg; exact ⟨by exact_mod_cast hcap.ne', by omega⟩)]
    rw [hpush]
    refine ⟨?_, ?_, ?_⟩
    · show Next 1 b.head (b.buf.length : Int) = (b.head + 1) % (b.buf.length : Int)
      exact Next_eq_emod 1 b.head hcap
    · exact Get_set_next_zero b v hcap hs h1
    · intro _ i hi1 hi2
      exact Get_set_next_shift b v ⟨h0, h1, h2, h3⟩ hs hi1 hi2 h1 (by omega)

/-- Witness for C8: pushing into the reachable full ring `New 1; Add 5`. -/
theorem claim_C8_witness :
    Reachable ((New 1 : Ring Int).Add 5).1 ∧
    ((((New 1 : Ring Int).Add 5).1.Push 9).Size = ((New 1 : Ring Int).Add 5).1.Size ∧
      (((New 1 : Ring Int).Add 5).1.Capacity = 0 ∨ ((New 1 : Ring Int).Add 5).1.Size = 0 → ((New 1 : Ring Int).Add 5).1.Push 9 = ((New 1 : Ring Int).Add 5).1) ∧
      (¬ (((New 1 : Ring Int).Add 5).1.Capacity = 0 ∨ ((New 1 : Ring Int).Add 5).1.Size = 0) →
        (((New 1 : Ring Int).Add 5).1.Push 9).head = (((New 1 : Ring Int).Add 5).1.head + 1) % ((New 1 : Ring Int).Add 5).1.Capacity ∧
        (((New 1 : Ring Int).Add 5).1.Push 9).Get 0 = .Ok (some 9) ∧
        (((New 1 : Ring Int).Add 5).1.Size = ((New 1 : Ring Int).Add 5).1.Capacity →
          ∀ i : Int, 1 ≤ i → i < ((New 1 : Ring Int).Add 5).1.size → (((New 1 : Ring Int).Add 5).1.Push 9).Get i = ((New 1 : Ring Int).Add 5).1.Get (i - 1)))) :=
  ⟨Reachable.add _ 5 (Reachable.new 1),
   claim_C8 Int ((New 1 : Ring Int).Add 5).1 9 (Reachable.add _ 5 (Reachable.new 1))⟩

/-- C9: `Remove(count)` never fails; `count ≤ 0` changes nothing;
`count ≥ size` empties the ring (`size = 0`, `head = -1`); otherwise
exactly `count` oldest elements are dropped: the size shrinks by `count`
while `head` and the surviving `Get i` are untouched. `New 5`,
`AddAll(1,2,3)`, `Remove 2` leaves `Size = 1` and `Get (-1) = 3`. -/
theorem claim_C9 :
    (∀ (α : Type) (b : Ring α) (count : Int), Reachable b →
      ((count ≤ 0 → b.Remove count = b) ∧
       (b.size ≤ count → (b.Remove count).size = 0 ∧ (b.Remove count).head = -1) ∧
       (0 < count → count < b.size →
         (b.Remove count).size = b.size - count ∧
         (b.Remove count).head = b.head ∧
         (∀ i : Int, 0 ≤ i → i < b.size - count →
           (b.Remove count).Get i = b.Get i)))) ∧
    ((New 5 : Ring Int).AddAll [1, 2, 3]
        = some ({ head := 2, size := 3, buf := [some 1, some 2, some 3, none, none] }, none) ∧
     (Ring.Remove { head := 2, size := 3, buf := [some 1, some 2, some 3, none, none] : Ring Int} 2).Size = 1 ∧
     (Ring.Remove { head := 2, size := 3, buf := [some 1, some 2, some 3, none, none] : Ring Int} 2).Get (-1) = .Ok (some 3)) := by
  refine ⟨?_, by decide, by decide, by decide⟩
  intro α b count hr
  have hwf := reachable_WF hr
  obtain ⟨h0, h1, h2, h3⟩ := hwf
  refine ⟨?_, ?_, ?_⟩
  · intro hc
    unfold Ring.Remove
    rw [if_pos hc]
  · intro hge
    rcases le_or_lt count 0 with hc | hc
    · have hsz0 : b.size = 0 := by omega
      have hempty : b.Remove count = b := by
        unfold Ring.Remove
        rw [if_pos hc]
      rw [hempty, hsz0]
      exact ⟨rfl, h2.mp hsz0⟩
    · unfold Ring.Remove
      rw [if_neg (by omega)]
      simp only []
      rw [if_pos (by omega)]
      exact ⟨rfl, rfl⟩
  · intro hc1 hc2
    rw [Remove_pos_spec hc1 hc2]
    exact ⟨rfl, rfl, fun i hi0 hi1 => by
      rw [← Remove_pos_spec hc1 hc2]
      exact Remove_Get ⟨h0, h1, h2, h3⟩ hc1 hc2 i hi0 hi1⟩

/-- Witness for C9: removing one of three elements of the reachable ring
`New 4; Add 1; Add 2; Add 3`. -/
theorem claim_C9_witness :
    Reachable ((((New 4 : Ring Int).Add 1).1.Add 2).1.Add 3).1 ∧
    ((((1 : Int) ≤ 0) → ((((New 4 : Ring Int).Add 1).1.Add 2).1.Add 3).1.Remove 1
        = ((((New 4 : Ring Int).Add 1).1.Add 2).1.Add 3).1) ∧
     (((((New 4 : Ring Int).Add 1).1.Add 2).1.Add 3).1.size ≤ 1 →
       (((((New 4 : Ring Int).Add 1).1.Add 2).1.Add 3).1.Remove 1).size = 0 ∧
       (((((New 4 : Ring Int).Add 1).1.Add 2).1.Add 3).1.Remove 1).head = -1) ∧
     ((0 : Int) < 1 → (1 : Int) < ((((New 4 : Ring Int).Add 1).1.Add 2).1.Add 3).1.size →
       (((((New 4 : Ring Int).Add 1).1.Add 2).1.Add 3).1.Remove 1).size
         = ((((New 4 : Ring Int).Add 1).1.Add 2).1.Add 3).1.size - 1 ∧
       (((((New 4 : Ring Int).Add 1).1.Add 2).1.Add 3).1.Remove 1).head
         = ((((New 4 : Ring Int).Add 1).1.Add 2).1.Add 3).1.head ∧
       (∀ i : Int, 0 ≤ i → i < ((((New 4 : Ring Int).Add 1).1.Add 2).1.Add 3).1.size - 1 →
         (((((New 4 : Ring Int).Add 1).1.Add 2).1.Add 3).1.Remove 1).Get i
           = ((((New 4 : Ring Int).Add 1).1.Add 2).1.Add 3).1.Get i))) :=
  ⟨Reachable.add _ 3 (Reachable.add _ 2 (Reachable.add _ 1 (Reachable.new 4))),
   claim_C9.1 Int ((((New 4 : Ring Int).Add 1).1.Add 2).1.Add 3).1 1
     (Reachable.add _ 3 (Reachable.add _ 2 (Reachable.add _ 1 (Reachable.new 4))))⟩

end RingBuffer
